import Mathlib

/-!
Verification of the relearn policy-keyed value store (src/src/relearn.hpp).

The header implements only the hash-combining utility relearn::hash_combine
(lines 137-142); the bodies of policy, the hash/equal functors and episode are
declared (lines 34-128) but left to a TODO (line 144).  Definitions below that
embed the implemented code are translated from the source; the remaining
operations are modelled from the specification, as marked in their doc
comments.

Machine integers: std::size_t is modelled as Nat together with an explicit
word size w, every operation that can overflow being reduced modulo 2 ^ w.
A left shift by 6 is multiplication by 2 ^ 6 (wrapped), a right shift by 2 is
division by 2 ^ 2.
-/

set_option autoImplicit false

namespace Relearn

/-- Embedding of relearn::hash_combine (src/src/relearn.hpp lines 137-142):
seed ^= hasher(v) + 0x9e3779b9 + (seed << 6) + (seed >> 2).
The argument hv stands for hasher(v), already reduced modulo 2 ^ w by
std::hash.  Each size_t addition and the left shift wrap modulo 2 ^ w; the
right shift is plain division.  The function returns the new seed (the C++
code assigns it through the reference). -/
def hash_combine (w seed hv : Nat) : Nat :=
  seed ^^^ ((((hv + 0x9e3779b9 % 2 ^ w) % 2 ^ w + seed * 2 ^ 6 % 2 ^ w) % 2 ^ w
      + seed / 2 ^ 2) % 2 ^ w)

/-- Embedding of relearn::policy (src/src/relearn.hpp lines 34-53): a pair of
a state of type S and an action of type A.  The C++ class stores const
references; the shallow embedding stores the referenced values. -/
structure policy (S A : Type) where
  state : S
  action : A

/-- Modelled from the spec: the body of policy::operator== (declared at
src/src/relearn.hpp line 42) is absent from the source (TODO at line 144).
Spec paragraph 3: two policies are equal iff their states are equal AND their
actions are equal (value equality on S and A).  The equal functor (lines
66-70) delegates to this equality. -/
def policy_eq {S A : Type} [DecidableEq S] [DecidableEq A]
    (lhs rhs : policy S A) : Bool :=
  decide (lhs.state = rhs.state) && decide (lhs.action = rhs.action)

/-- Modelled from the spec: the body of the hash functor hash<S,A> (declared
at src/src/relearn.hpp lines 59-63) is absent from the source (TODO at line
144).  Spec paragraph 4.2: the seed starts at 0, the state hash is mixed in
first with hash_combine and the action hash second.  hashS and hashA stand
for std::hash over S and A. -/
def hashPolicy {S A : Type} (w : Nat) (hashS : S → Nat) (hashA : A → Nat)
    (p : policy S A) : Nat :=
  let seed0 : Nat := 0
  let seed1 : Nat := hash_combine w seed0 (hashS p.state)
  let seed2 : Nat := hash_combine w seed1 (hashA p.action)
  seed2

/-- Embedding of relearn::episode (src/src/relearn.hpp lines 85-128): it owns
a root state (a unique_ptr, null after default construction, hence an Option)
and an unordered_map from policy to float, modelled as an association list of
entries. -/
structure episode (S A : Type) where
  root : Option S
  policies : List (policy S A × Float)

/-- Modelled from the spec: the episode constructor taking a root state
(declared at src/src/relearn.hpp line 98) is absent from the source; the spec
says construction moves the value in as the exclusively owned root and the
policy map starts empty. -/
def mkEpisode {S A : Type} (s : S) : episode S A :=
  ⟨some s, []⟩

/-- Modelled from the spec: episode::update (declared at src/src/relearn.hpp
line 104) is absent from the source.  Spec paragraph 4.3: update inserts a new
entry or overwrites the value of an equal existing policy key.  On the
association list: the first entry whose key compares equal keeps its stored
key and receives the new value; if no key compares equal the entry is
appended. -/
def updateEntries {S A : Type} [DecidableEq S] [DecidableEq A] :
    List (policy S A × Float) → policy S A → Float → List (policy S A × Float)
  | [], p, v => [(p, v)]
  | (q, w) :: rest, p, v =>
    if policy_eq q p then (q, v) :: rest else (q, w) :: updateEntries rest p v

/-- Modelled from the spec: episode::update mutates only the internal policy
map, leaving the root untouched. -/
def update {S A : Type} [DecidableEq S] [DecidableEq A]
    (e : episode S A) (pair : policy S A) (v : Float) : episode S A :=
  ⟨e.root, updateEntries e.policies pair v⟩

/-- Modelled from the spec: episode::value (declared at src/src/relearn.hpp
line 107) is absent from the source.  It returns the stored float of an equal
policy key; for a missing key the source leaves the contract undefined and
spec paragraph 7 recommends the default 0.0, adopted here. -/
def lookupEntries {S A : Type} [DecidableEq S] [DecidableEq A] :
    List (policy S A × Float) → policy S A → Float
  | [], _ => 0.0
  | (q, w) :: rest, p => if policy_eq q p then w else lookupEntries rest p

/-- Modelled from the spec: episode::value looks the policy up in the owned
map. -/
def value {S A : Type} [DecidableEq S] [DecidableEq A]
    (e : episode S A) (pair : policy S A) : Float :=
  lookupEntries e.policies pair

/-- Modelled from the spec: episode::operator== (declared at
src/src/relearn.hpp line 110) is absent from the source.  Spec paragraph 3:
two episodes are equal iff their root states are equal and their policy maps
contain the same set of policy-to-value entries (order-independent set
equality), here both entry lists contain one another as sets. -/
def episode_eq {S A : Type} (e1 e2 : episode S A) : Prop :=
  e1.root = e2.root ∧ e1.policies ⊆ e2.policies ∧ e2.policies ⊆ e1.policies

/-- Entry list built by a sequence of update calls starting from a freshly
constructed episode with root s; models applying episode::update once per
element, in order.  Iteration over the episode (begin/end, src lines 112-120)
yields exactly the entries of the policies field. -/
def buildEpisode {S A : Type} [DecidableEq S] [DecidableEq A]
    (s : S) (l : List (policy S A × Float)) : episode S A :=
  l.foldl (fun e pv => update e pv.1 pv.2) (mkEpisode s)

/-- A key p occurs in the entry list when some stored entry key compares equal
to it under policy equality. -/
def containsKey {S A : Type} [DecidableEq S] [DecidableEq A]
    (l : List (policy S A × Float)) (p : policy S A) : Bool :=
  l.any fun qv => policy_eq qv.1 p

/-- Map uniqueness invariant: no two entries of the list have keys that
compare equal under policy equality. -/
def keysDistinct {S A : Type} [DecidableEq S] [DecidableEq A]
    (l : List (policy S A × Float)) : Prop :=
  l.Pairwise fun qv rv => policy_eq qv.1 rv.1 = false

/-- Claim C1: for every seed s and hashed value hv, hash_combine returns
s XOR (hv + 0x9e3779b9 + (s << 6) + (s >> 2)) with the arithmetic performed
modulo 2 ^ w. -/
theorem hash_combine_formula (w s hv : Nat) :
    hash_combine w s hv =
      s ^^^ ((hv + 0x9e3779b9 + s * 2 ^ 6 + s / 2 ^ 2) % 2 ^ w) := by
  unfold hash_combine
  congr 1
  simp [Nat.mod_add_mod, Nat.add_mod_mod]

/-- Claim C10: at seed 0 the XOR and both shift terms vanish, so hash_combine
0 hv is exactly hv + 0x9e3779b9 modulo 2 ^ w. -/
theorem hash_combine_zero_seed (w hv : Nat) :
    hash_combine w 0 hv = (hv + 0x9e3779b9) % 2 ^ w := by
  simp [hash_combine]

/-- Claim C2: the hash functor applied to a policy returns
hash_combine (hash_combine 0 (hash of the state)) (hash of the action): the
seed starts at 0, the state hash is mixed in first, the action hash second. -/
theorem hashPolicy_eq {S A : Type} (w : Nat) (hashS : S → Nat) (hashA : A → Nat)
    (p : policy S A) :
    hashPolicy w hashS hashA p =
      hash_combine w (hash_combine w 0 (hashS p.state)) (hashA p.action) := rfl

/-- Claim C3: two policies compare equal under policy equality iff their
states are equal and their actions are equal, using value equality of S and
A. -/
theorem policy_eq_iff {S A : Type} [DecidableEq S] [DecidableEq A]
    (s1 s2 : S) (a1 a2 : A) :
    policy_eq (policy.mk s1 a1) (policy.mk s2 a2) = true ↔ s1 = s2 ∧ a1 = a2 := by
  simp [policy_eq]

/-- Claim C4: policies that compare equal receive equal hashes from the hash
functor (hash and equality contract for map keys). -/
theorem policy_eq_hash_eq {S A : Type} [DecidableEq S] [DecidableEq A]
    (w : Nat) (hashS : S → Nat) (hashA : A → Nat) (p1 p2 : policy S A)
    (h : policy_eq p1 p2 = true) :
    hashPolicy w hashS hashA p1 = hashPolicy w hashS hashA p2 := by
  have hc : p1.state = p2.state ∧ p1.action = p2.action := by
    simpa [policy_eq] using h
  simp [hashPolicy, hc.1, hc.2]

/-- Witness for claim C4 at a concrete equal pair of Nat-state, Nat-action
policies with the identity component hashes at word size 64. -/
theorem policy_eq_hash_eq_witness :
    policy_eq (policy.mk 1 2) (policy.mk 1 2) = true ∧
      hashPolicy 64 id id (policy.mk (1 : Nat) (2 : Nat)) =
        hashPolicy 64 id id (policy.mk 1 2) :=
  ⟨by decide, policy_eq_hash_eq 64 id id (policy.mk 1 2) (policy.mk 1 2) (by decide)⟩

theorem policy_eq_self {S A : Type} [DecidableEq S] [DecidableEq A]
    (p : policy S A) : policy_eq p p = true := by
  simp [policy_eq]

theorem lookupEntries_updateEntries_self {S A : Type} [DecidableEq S] [DecidableEq A]
    (l : List (policy S A × Float)) (p : policy S A) (v : Float) :
    lookupEntries (updateEntries l p v) p = v := by
  induction l with
  | nil => simp [updateEntries, lookupEntries, policy_eq_self]
  | cons qv rest ih =>
    obtain ⟨q, w⟩ := qv
    by_cases hq : policy_eq q p = true
    · simp [updateEntries, lookupEntries, hq]
    · simp [updateEntries, lookupEntries, hq, ih]

theorem containsKey_updateEntries_self {S A : Type} [DecidableEq S] [DecidableEq A]
    (l : List (policy S A × Float)) (p : policy S A) (v : Float) :
    containsKey (updateEntries l p v) p = true := by
  induction l with
  | nil => simp [updateEntries, containsKey, policy_eq_self]
  | cons qv rest ih =>
    obtain ⟨q, w⟩ := qv
    by_cases hq : policy_eq q p = true
    · simp [updateEntries, containsKey, hq]
    · simp [updateEntries, containsKey, hq]
      simpa [containsKey] using ih

theorem updateEntries_length {S A : Type} [DecidableEq S] [DecidableEq A]
    (l : List (policy S A × Float)) (p : policy S A) (v : Float) :
    (updateEntries l p v).length =
      if containsKey l p then l.length else l.length + 1 := by
  induction l with
  | nil => simp [updateEntries, containsKey]
  | cons qv rest ih =>
    obtain ⟨q, w⟩ := qv
    by_cases hq : policy_eq q p = true
    · simp [updateEntries, containsKey, hq]
    · simp only [updateEntries, hq, if_false, Bool.false_eq_true, List.length_cons,
        containsKey, List.any_cons, Bool.false_or]
      rw [show (List.any rest fun qv => policy_eq qv.1 p) = containsKey rest p from rfl, ih]
      by_cases hc : containsKey rest p = true <;> simp [hc]

theorem updateEntries_keys {S A : Type} [DecidableEq S] [DecidableEq A]
    (l : List (policy S A × Float)) (p : policy S A) (v : Float) :
    (updateEntries l p v).map Prod.fst =
      if containsKey l p then l.map Prod.fst else l.map Prod.fst ++ [p] := by
  induction l with
  | nil => simp [updateEntries, containsKey]
  | cons qv rest ih =>
    obtain ⟨q, w⟩ := qv
    by_cases hq : policy_eq q p = true
    · simp [updateEntries, containsKey, hq]
    · simp only [updateEntries, hq, if_false, Bool.false_eq_true, List.map_cons,
        containsKey, List.any_cons, Bool.false_or]
      rw [show (List.any rest fun qv => policy_eq qv.1 p) = containsKey rest p from rfl, ih]
      by_cases hc : containsKey rest p = true <;> simp [hc]

theorem keysDistinct_map_iff {S A : Type} [DecidableEq S] [DecidableEq A]
    (l : List (policy S A × Float)) :
    keysDistinct l ↔
      (l.map Prod.fst).Pairwise fun k1 k2 => policy_eq k1 k2 = false := by
  rw [List.pairwise_map]
  exact Iff.rfl

theorem keysDistinct_updateEntries {S A : Type} [DecidableEq S] [DecidableEq A]
    (l : List (policy S A × Float)) (p : policy S A) (v : Float)
    (h : keysDistinct l) : keysDistinct (updateEntries l p v) := by
  rw [keysDistinct_map_iff] at h ⊢
  rw [updateEntries_keys]
  by_cases hc : containsKey l p = true
  · simpa [hc] using h
  · simp only [hc, if_false, Bool.false_eq_true]
    rw [List.pairwise_append]
    refine ⟨h, by simp, ?_⟩
    intro k hk kp hkp
    simp only [List.mem_singleton] at hkp
    rw [hkp]
    simp only [List.mem_map] at hk
    obtain ⟨c, hcl, hck⟩ := hk
    have hall : ∀ qv ∈ l, ¬policy_eq qv.1 p = true := by
      simpa [containsKey, List.any_eq_true] using hc
    have hcp := hall c hcl
    rw [hck] at hcp
    simpa using hcp

theorem updateEntries_not_contains {S A : Type} [DecidableEq S] [DecidableEq A]
    (l : List (policy S A × Float)) (p : policy S A) (v : Float)
    (h : containsKey l p = false) : updateEntries l p v = l ++ [(p, v)] := by
  induction l with
  | nil => simp [updateEntries]
  | cons qv rest ih =>
    obtain ⟨q, w⟩ := qv
    simp only [containsKey, List.any_cons, Bool.or_eq_false_iff] at h
    simp [updateEntries, h.1, ih (by simpa [containsKey] using h.2)]

theorem foldl_update_policies {S A : Type} [DecidableEq S] [DecidableEq A]
    (l : List (policy S A × Float)) (e0 : episode S A) :
    (List.foldl (fun e pv => update e pv.1 pv.2) e0 l).policies =
      List.foldl (fun es pv => updateEntries es pv.1 pv.2) e0.policies l := by
  induction l generalizing e0 with
  | nil => rfl
  | cons pv rest ih =>
    rw [List.foldl_cons, List.foldl_cons]
    exact ih (update e0 pv.1 pv.2)

theorem foldl_update_root {S A : Type} [DecidableEq S] [DecidableEq A]
    (l : List (policy S A × Float)) (e0 : episode S A) :
    (List.foldl (fun e pv => update e pv.1 pv.2) e0 l).root = e0.root := by
  induction l generalizing e0 with
  | nil => rfl
  | cons pv rest ih =>
    rw [List.foldl_cons]
    exact ih (update e0 pv.1 pv.2)

theorem foldl_updateEntries_app {S A : Type} [DecidableEq S] [DecidableEq A]
    (l acc : List (policy S A × Float)) (h : keysDistinct (acc ++ l)) :
    List.foldl (fun es pv => updateEntries es pv.1 pv.2) acc l = acc ++ l := by
  induction l generalizing acc with
  | nil => simp
  | cons pv rest ih =>
    have hacc : containsKey acc pv.1 = false := by
      rw [keysDistinct, List.pairwise_append] at h
      have hall := h.2.2
      simp only [containsKey, List.any_eq_false]
      intro qv hqv
      simpa using hall qv hqv pv (by simp)
    rw [List.foldl_cons, updateEntries_not_contains acc pv.1 pv.2 hacc]
    have hperm : (acc ++ [(pv.1, pv.2)]) ++ rest = acc ++ pv :: rest := by
      simp
    have hd : keysDistinct ((acc ++ [(pv.1, pv.2)]) ++ rest) := by
      rw [hperm]; exact h
    have := ih (acc ++ [(pv.1, pv.2)]) hd
    rw [this, hperm]

/-- Claim C5: updating a policy to value v and then reading it back through
value returns v. -/
theorem update_value_roundtrip {S A : Type} [DecidableEq S] [DecidableEq A]
    (e : episode S A) (p : policy S A) (v : Float) :
    value (update e p v) p = v :=
  lookupEntries_updateEntries_self e.policies p v

/-- Claim C6: a second update of the same policy overwrites the value, leaves
the number of stored entries unchanged, and preserves the map uniqueness
invariant that no two entries compare equal under policy equality. -/
theorem update_overwrite {S A : Type} [DecidableEq S] [DecidableEq A]
    (e : episode S A) (p : policy S A) (v1 v2 : Float)
    (h : keysDistinct e.policies) :
    value (update (update e p v1) p v2) p = v2 ∧
      (update (update e p v1) p v2).policies.length =
        (update e p v1).policies.length ∧
      keysDistinct (update (update e p v1) p v2).policies := by
  refine ⟨lookupEntries_updateEntries_self _ p v2, ?_, ?_⟩
  · show (updateEntries (updateEntries e.policies p v1) p v2).length =
        (updateEntries e.policies p v1).length
    rw [updateEntries_length]
    simp [containsKey_updateEntries_self]
  · exact keysDistinct_updateEntries _ p v2 (keysDistinct_updateEntries _ p v1 h)

/-- Witness for claim C6: a fresh episode with Nat root 0, updating the policy
(1, 2) first to 1.5 and then to 2.5. -/
theorem update_overwrite_witness :
    keysDistinct (mkEpisode (S := Nat) (A := Nat) 0).policies ∧
      (value (update (update (mkEpisode 0) (policy.mk 1 2) 1.5) (policy.mk 1 2) 2.5)
          (policy.mk 1 2) = 2.5 ∧
        (update (update (mkEpisode (S := Nat) (A := Nat) 0) (policy.mk 1 2) 1.5)
            (policy.mk 1 2) 2.5).policies.length =
          (update (mkEpisode (S := Nat) (A := Nat) 0) (policy.mk 1 2) 1.5).policies.length ∧
        keysDistinct (update (update (mkEpisode (S := Nat) (A := Nat) 0)
            (policy.mk 1 2) 1.5) (policy.mk 1 2) 2.5).policies) := by
  have hd : keysDistinct (mkEpisode (S := Nat) (A := Nat) 0).policies := by
    simp [mkEpisode, keysDistinct]
  exact ⟨hd, update_overwrite (mkEpisode 0) (policy.mk 1 2) 1.5 2.5 hd⟩

/-- Claim C7: two episodes are equal exactly when their roots agree and their
entry lists hold the same set of policy-to-value entries, independent of the
order in which the entries were inserted. -/
theorem episode_eq_iff {S A : Type} (e1 e2 : episode S A) :
    episode_eq e1 e2 ↔
      (e1.root = e2.root ∧ ∀ pv, pv ∈ e1.policies ↔ pv ∈ e2.policies) := by
  unfold episode_eq
  constructor
  · rintro ⟨hr, h12, h21⟩
    exact ⟨hr, fun pv => ⟨fun hm => h12 hm, fun hm => h21 hm⟩⟩
  · rintro ⟨hr, h⟩
    exact ⟨hr, fun pv hm => (h pv).1 hm, fun pv hm => (h pv).2 hm⟩

/-- Claim C8: building an episode by n updates with pairwise distinct keys
stores exactly those n entries, with no omission or duplication (iteration
traverses the policies field, a fixed list, so a second traversal yields the
same set); a freshly constructed episode iterates to the empty sequence. -/
theorem buildEpisode_complete {S A : Type} [DecidableEq S] [DecidableEq A]
    (r : S) (l : List (policy S A × Float)) (h : keysDistinct l) :
    (buildEpisode r l).policies = l ∧
      (mkEpisode (S := S) (A := A) r).policies = [] := by
  constructor
  · rw [buildEpisode, foldl_update_policies]
    show List.foldl _ ([] : List (policy S A × Float)) l = l
    have := foldl_updateEntries_app l [] (by simpa using h)
    simpa using this
  · rfl

/-- Witness for claim C8: two distinct Nat policies with values 1.5 and 2.5
folded into an episode rooted at 0. -/
theorem buildEpisode_complete_witness :
    keysDistinct [(policy.mk (1 : Nat) (2 : Nat), (1.5 : Float)), (policy.mk 3 4, 2.5)] ∧
      ((buildEpisode 0 [(policy.mk (1 : Nat) (2 : Nat), (1.5 : Float)),
          (policy.mk 3 4, 2.5)]).policies =
        [(policy.mk (1 : Nat) (2 : Nat), (1.5 : Float)), (policy.mk 3 4, 2.5)] ∧
        (mkEpisode (S := Nat) (A := Nat) 0).policies = []) := by
  have hd : keysDistinct
      [(policy.mk (1 : Nat) (2 : Nat), (1.5 : Float)), (policy.mk 3 4, 2.5)] := by
    simp [keysDistinct, policy_eq]
  exact ⟨hd, buildEpisode_complete 0 _ hd⟩

/-- Claim C9: update never changes the root: it rewrites only the policies
field, and an episode constructed with root s still reports root s after any
sequence of updates. -/
theorem update_preserves_root {S A : Type} [DecidableEq S] [DecidableEq A]
    (e : episode S A) (p : policy S A) (v : Float) (s : S)
    (l : List (policy S A × Float)) :
    (update e p v).root = e.root ∧ (buildEpisode s l).root = some s := by
  constructor
  · rfl
  · rw [buildEpisode, foldl_update_root]
    rfl

end Relearn
